import Mathlib

/-!
Shallow embedding of the anchor-indexing service (ltonetwork/anchor):
the storage service (association graph, anchors, trust-network roles,
processing-height checkpoint) and the anchor monitor's block-scanning
loop and transaction dispatch, together with proofs of the spec's
claims about them.
-/

namespace Anchor

/-! ## Set store (storage backend, sadd / srem / getArray)

The storage backends themselves (Redis / LevelDB) are not part of the
analysed sources; per the spec they implement `sadd/srem(key, member)`
and `getArray(key) -> ordered list of members` with set semantics
("order not semantically significant, treated as a set"), and any
absent key reads as empty. -/

/-- Modelled from the spec: the backend set store (`sadd`/`srem`/`getArray`
of the storage interface, whose Redis/LevelDB implementations are not in
the analysed sources). A total map from key strings to member lists with
set semantics: `sadd` appends a member not already present, `srem`
removes a member, an absent key is the empty list. -/
structure SetStore where
  stores : String → List String

namespace SetStore

def getArray (st : SetStore) (key : String) : List String :=
  st.stores key

def sadd (st : SetStore) (key member : String) : SetStore :=
  ⟨fun k =>
    if k = key then
      if member ∈ st.stores key then st.stores key else st.stores key ++ [member]
    else st.stores k⟩

def srem (st : SetStore) (key member : String) : SetStore :=
  ⟨fun k =>
    if k = key then (st.stores key).filter (fun x => x ≠ member)
    else st.stores k⟩

/-- The empty backend state: every key reads as the empty list. -/
def empty : SetStore := ⟨fun _ => []⟩

theorem mem_getArray_sadd (st : SetStore) (key member k x : String) :
    x ∈ (st.sadd key member).getArray k ↔
      x ∈ st.getArray k ∨ (k = key ∧ x = member) := by
  unfold sadd getArray
  by_cases hk : k = key
  · subst hk
    by_cases hm : member ∈ st.stores k
    · simp [hm]
      exact fun h => h ▸ hm
    · simp [hm]
  · simp [hk]

theorem mem_getArray_srem (st : SetStore) (key member k x : String) :
    x ∈ (st.srem key member).getArray k ↔
      x ∈ st.getArray k ∧ ¬(k = key ∧ x = member) := by
  unfold srem getArray
  by_cases hk : k = key
  · subst hk
    simp [List.mem_filter]
  · simp [hk]

end SetStore

/-! ## Association keys

The storage service addresses the association adjacency sets with the
string keys `lto:assoc:${address}:childs` and `lto:assoc:${address}:parents`.
These key builders are injective and mutually disjoint, which we prove
below (the invariant proofs depend on it). -/

def childsKey (address : String) : String :=
  "lto:assoc:" ++ address ++ ":childs"

def parentsKey (address : String) : String :=
  "lto:assoc:" ++ address ++ ":parents"

theorem string_eq_of_data_eq {a b : String} (h : a.data = b.data) : a = b := by
  cases a; cases b; exact congrArg String.mk h

theorem childsKey_inj {a b : String} (h : childsKey a = childsKey b) : a = b := by
  unfold childsKey at h
  have hd : ("lto:assoc:" : String).data ++ (a.data ++ (":childs" : String).data) =
      ("lto:assoc:" : String).data ++ (b.data ++ (":childs" : String).data) := by
    have := congrArg String.data h
    simpa [String.data_append, List.append_assoc] using this
  have h2 := List.append_cancel_left hd
  exact string_eq_of_data_eq (List.append_cancel_right h2)

theorem parentsKey_inj {a b : String} (h : parentsKey a = parentsKey b) : a = b := by
  unfold parentsKey at h
  have hd : ("lto:assoc:" : String).data ++ (a.data ++ (":parents" : String).data) =
      ("lto:assoc:" : String).data ++ (b.data ++ (":parents" : String).data) := by
    have := congrArg String.data h
    simpa [String.data_append, List.append_assoc] using this
  have h2 := List.append_cancel_left hd
  exact string_eq_of_data_eq (List.append_cancel_right h2)

theorem childsKey_ne_parentsKey (a b : String) : childsKey a ≠ parentsKey b := by
  intro h
  unfold childsKey parentsKey at h
  have hd : a.data ++ (":childs" : String).data = b.data ++ (":parents" : String).data := by
    have := congrArg String.data h
    have h2 : ("lto:assoc:" : String).data ++ (a.data ++ (":childs" : String).data) =
        ("lto:assoc:" : String).data ++ (b.data ++ (":parents" : String).data) := by
      simpa [String.data_append, List.append_assoc] using this
    exact List.append_cancel_left h2
  have hrev := congrArg List.reverse hd
  rw [List.reverse_append, List.reverse_append] at hrev
  have : (List.reverse (":childs" : String).data) ++ a.data.reverse =
      (List.reverse (":parents" : String).data) ++ b.data.reverse := hrev
  simp [show (List.reverse (":childs" : String).data) = ['s','d','l','i','h','c',':'] from rfl,
    show (List.reverse (":parents" : String).data) = ['s','t','n','e','r','a','p',':'] from rfl] at this

theorem childsKey_eq_iff (a b : String) : childsKey a = childsKey b ↔ a = b :=
  ⟨childsKey_inj, fun h => h ▸ rfl⟩

theorem parentsKey_eq_iff (a b : String) : parentsKey a = parentsKey b ↔ a = b :=
  ⟨parentsKey_inj, fun h => h ▸ rfl⟩

theorem parentsKey_ne_childsKey (a b : String) : parentsKey a ≠ childsKey b :=
  fun h => childsKey_ne_parentsKey b a h.symm

/-! ## Transactions

The fields of the transaction interface that the analysed code reads:
`id`, numeric `type`, `sender`, association `party`, the optional legacy
key/value `data` items (type 12) and the optional `anchors` list (type 15). -/

structure DataItem where
  key : String
  value : String
deriving DecidableEq

structure Transaction where
  id : String
  type : Nat
  sender : String
  party : String
  data : Option (List DataItem)
  anchors : Option (List String)
deriving DecidableEq

/-! ## Association graph manager (StorageService)

Embeds `saveAssociation`, `removeAssociation` and `recurRemoveAssociation`
of the storage service. The source's `recurRemoveAssociation` recurses on
the mutable store with no structural bound, so the embedding takes a fuel
parameter and returns `none` when the fuel runs out; termination claims
are statements that some fuel suffices. -/

def saveAssociation (st : SetStore) (tx : Transaction) : SetStore :=
  (st.sadd (childsKey tx.sender) tx.party).sadd (parentsKey tx.party) tx.sender

/-- One iteration step of the `for (const child of childAssocs)` loop in
`recurRemoveAssociation`: remove the mirrored edge pair for `child`, then
recurse into `child` (via the supplied `recur`), then continue with the
rest of the snapshot list. -/
def recurStep (recur : SetStore → String → Option SetStore) (address : String) :
    List String → SetStore → Option SetStore
  | [], st => some st
  | child :: rest, st =>
    let st1 := (st.srem (childsKey address) child).srem (parentsKey child) address
    match recur st1 child with
    | none => none
    | some st2 => recurStep recur address rest st2

def recurRemoveAssociation : Nat → SetStore → String → Option SetStore
  | 0, _, _ => none
  | Nat.succ fuel, st, address =>
    recurStep (recurRemoveAssociation fuel) address (st.getArray (childsKey address)) st

def removeAssociation (fuel : Nat) (st : SetStore) (tx : Transaction) : Option SetStore :=
  recurRemoveAssociation fuel
    ((st.srem (childsKey tx.sender) tx.party).srem (parentsKey tx.party) tx.sender)
    tx.party

/-! ## Mirror-edge invariant -/

/-- The mirror-edge invariant: `c` is in `p`'s children set iff `p` is in
`c`'s parents set. -/
def Mirrored (st : SetStore) : Prop :=
  ∀ p c, c ∈ st.getArray (childsKey p) ↔ p ∈ st.getArray (parentsKey c)

theorem mirrored_saddPair {st : SetStore} (h : Mirrored st) (a c0 : String) :
    Mirrored ((st.sadd (childsKey a) c0).sadd (parentsKey c0) a) := by
  intro p c
  simp only [SetStore.mem_getArray_sadd, childsKey_eq_iff, parentsKey_eq_iff]
  rw [iff_false_intro (childsKey_ne_parentsKey p c0), iff_false_intro (parentsKey_ne_childsKey c a)]
  have := h p c
  tauto

theorem mirrored_sremPair {st : SetStore} (h : Mirrored st) (a c0 : String) :
    Mirrored ((st.srem (childsKey a) c0).srem (parentsKey c0) a) := by
  intro p c
  simp only [SetStore.mem_getArray_srem, childsKey_eq_iff, parentsKey_eq_iff]
  rw [iff_false_intro (childsKey_ne_parentsKey p c0), iff_false_intro (parentsKey_ne_childsKey c a)]
  have := h p c
  tauto

theorem mirrored_recurStep
    (recur : SetStore → String → Option SetStore)
    (hrec : ∀ s a s', Mirrored s → recur s a = some s' → Mirrored s')
    (address : String) :
    ∀ (l : List String) (st st' : SetStore), Mirrored st →
      recurStep recur address l st = some st' → Mirrored st'
  | [], st, st', h, heq => by
    simp only [recurStep, Option.some.injEq] at heq
    exact heq ▸ h
  | child :: rest, st, st', h, heq => by
    simp only [recurStep] at heq
    cases hr : recur ((st.srem (childsKey address) child).srem (parentsKey child) address) child with
    | none => rw [hr] at heq; exact absurd heq (by simp)
    | some st2 =>
      rw [hr] at heq
      exact mirrored_recurStep recur hrec address rest st2 st'
        (hrec _ _ _ (mirrored_sremPair h address child) hr) heq

theorem mirrored_recurRemoveAssociation :
    ∀ (fuel : Nat) (st : SetStore) (address : String) (st' : SetStore),
      Mirrored st → recurRemoveAssociation fuel st address = some st' → Mirrored st'
  | 0, _, _, _, _, heq => absurd heq (by simp [recurRemoveAssociation])
  | Nat.succ fuel, st, address, st', h, heq => by
    simp only [recurRemoveAssociation] at heq
    exact mirrored_recurStep (recurRemoveAssociation fuel)
      (fun s a s' hs he => mirrored_recurRemoveAssociation fuel s a s' hs he)
      address _ st st' h heq

theorem mirrored_saveAssociation {st : SetStore} (h : Mirrored st) (tx : Transaction) :
    Mirrored (saveAssociation st tx) :=
  mirrored_saddPair h tx.sender tx.party

theorem mirrored_removeAssociation {st : SetStore} (h : Mirrored st) (fuel : Nat)
    (tx : Transaction) (st' : SetStore) (heq : removeAssociation fuel st tx = some st') :
    Mirrored st' :=
  mirrored_recurRemoveAssociation fuel _ tx.party st'
    (mirrored_sremPair h tx.sender tx.party) heq

/-! ## The cascade only shrinks the store -/

/-- Pointwise membership inclusion between two backend states: every
member of every set of `st` is also a member of the same set of `st'`. -/
def SetStore.Subset (st st' : SetStore) : Prop :=
  ∀ k x, x ∈ st.getArray k → x ∈ st'.getArray k

theorem SetStore.Subset.refl (st : SetStore) : SetStore.Subset st st :=
  fun _ _ h => h

theorem SetStore.Subset.trans {s1 s2 s3 : SetStore}
    (h12 : SetStore.Subset s1 s2) (h23 : SetStore.Subset s2 s3) : SetStore.Subset s1 s3 :=
  fun k x h => h23 k x (h12 k x h)

theorem srem_subset (st : SetStore) (key member : String) :
    SetStore.Subset (st.srem key member) st := by
  intro k x h
  exact ((SetStore.mem_getArray_srem st key member k x).mp h).1

theorem sremPair_subset (st : SetStore) (a c0 : String) :
    SetStore.Subset ((st.srem (childsKey a) c0).srem (parentsKey c0) a) st :=
  SetStore.Subset.trans (srem_subset _ _ _) (srem_subset _ _ _)

theorem recurStep_subset
    (recur : SetStore → String → Option SetStore)
    (hrec : ∀ s a s', recur s a = some s' → SetStore.Subset s' s)
    (address : String) :
    ∀ (l : List String) (st st' : SetStore),
      recurStep recur address l st = some st' → SetStore.Subset st' st
  | [], st, st', heq => by
    simp only [recurStep, Option.some.injEq] at heq
    exact heq ▸ SetStore.Subset.refl st
  | child :: rest, st, st', heq => by
    simp only [recurStep] at heq
    cases hr : recur ((st.srem (childsKey address) child).srem (parentsKey child) address) child with
    | none => rw [hr] at heq; exact absurd heq (by simp)
    | some st2 =>
      rw [hr] at heq
      exact SetStore.Subset.trans
        (recurStep_subset recur hrec address rest st2 st' heq)
        (SetStore.Subset.trans (hrec _ _ _ hr) (sremPair_subset st address child))

theorem recurRemoveAssociation_subset :
    ∀ (fuel : Nat) (st : SetStore) (address : String) (st' : SetStore),
      recurRemoveAssociation fuel st address = some st' → SetStore.Subset st' st
  | 0, _, _, _, heq => absurd heq (by simp [recurRemoveAssociation])
  | Nat.succ fuel, st, address, st', heq => by
    simp only [recurRemoveAssociation] at heq
    exact recurStep_subset (recurRemoveAssociation fuel)
      (fun s a s' he => recurRemoveAssociation_subset fuel s a s' he)
      address _ st st' heq

/-! ## Termination of the cascade on acyclic graphs

Acyclicity of the adjacency graph is rendered as well-foundedness of the
child relation of the starting store (every address is reached from below
by no infinite chain of child edges; for the finite graphs held in
storage this is exactly "no cycle is reachable"). -/

/-- The child relation of a store: `childRel st c a` holds when `c` is a
member of `a`'s children set. -/
def childRel (st : SetStore) (c a : String) : Prop :=
  c ∈ st.getArray (childsKey a)

/-- The descent height of an address under a well-founded child relation:
one more than the maximum height of its children, 0 at a childless
address. Bounds the recursion depth of the cascade started there. -/
def descHeight (st0 : SetStore) (hwf : WellFounded (childRel st0)) : String → Nat :=
  hwf.fix (fun a rec =>
    ((st0.getArray (childsKey a)).attach.map (fun c => rec c.1 c.2 + 1)).foldr max 0)

theorem le_foldr_max {x : Nat} : ∀ {l : List Nat}, x ∈ l → x ≤ l.foldr max 0
  | a :: l, h => by
    rcases List.mem_cons.mp h with h | h
    · subst h; exact Nat.le_max_left _ _
    · exact Nat.le_trans (le_foldr_max h) (Nat.le_max_right _ _)

theorem descHeight_lt {st0 : SetStore} (hwf : WellFounded (childRel st0))
    {c a : String} (h : childRel st0 c a) :
    descHeight st0 hwf c < descHeight st0 hwf a := by
  conv_rhs => rw [descHeight, WellFounded.fix_eq]
  have hmem : descHeight st0 hwf c + 1 ∈
      ((st0.getArray (childsKey a)).attach.map
        (fun x => descHeight st0 hwf x.1 + 1)) :=
    List.mem_map.mpr ⟨⟨c, h⟩, List.mem_attach _ _, rfl⟩
  exact Nat.lt_of_lt_of_le (Nat.lt_succ_self _) (le_foldr_max hmem)

theorem recurStep_total (st0 : SetStore) (hwf : WellFounded (childRel st0))
    (n : Nat) (address : String)
    (hrec : ∀ a' st, SetStore.Subset st st0 → descHeight st0 hwf a' < n →
      ∃ st', recurRemoveAssociation n st a' = some st' ∧ SetStore.Subset st' st) :
    ∀ (l : List String) (st : SetStore), SetStore.Subset st st0 →
      (∀ c ∈ l, childRel st0 c address) →
      descHeight st0 hwf address < n + 1 →
      ∃ st', recurStep (recurRemoveAssociation n) address l st = some st' ∧
        SetStore.Subset st' st
  | [], st, _, _, _ => ⟨st, rfl, SetStore.Subset.refl st⟩
  | child :: rest, st, hsub, hl, hh => by
    have hchild : childRel st0 child address := hl child (List.mem_cons_self child rest)
    have hlt : descHeight st0 hwf child < n :=
      Nat.lt_of_lt_of_le (descHeight_lt hwf hchild) (Nat.lt_succ_iff.mp hh)
    have hsub1 : SetStore.Subset
        ((st.srem (childsKey address) child).srem (parentsKey child) address) st0 :=
      SetStore.Subset.trans (sremPair_subset st address child) hsub
    obtain ⟨st2, heq2, hsub2⟩ := hrec child _ hsub1 hlt
    obtain ⟨st', heq', hsub'⟩ :=
      recurStep_total st0 hwf n address hrec rest st2
        (SetStore.Subset.trans (SetStore.Subset.trans hsub2
          (sremPair_subset st address child)) hsub)
        (fun c hc => hl c (List.mem_cons_of_mem child hc)) hh
    refine ⟨st', ?_, SetStore.Subset.trans hsub'
      (SetStore.Subset.trans hsub2 (sremPair_subset st address child))⟩
    simp only [recurStep, heq2]
    exact heq'

theorem recurRemoveAssociation_total (st0 : SetStore) (hwf : WellFounded (childRel st0)) :
    ∀ (fuel : Nat) (a : String) (st : SetStore), SetStore.Subset st st0 →
      descHeight st0 hwf a < fuel →
      ∃ st', recurRemoveAssociation fuel st a = some st' ∧ SetStore.Subset st' st
  | 0, _, _, _, hlt => absurd hlt (Nat.not_lt_zero _)
  | Nat.succ n, a, st, hsub, hlt => by
    have := recurStep_total st0 hwf n a
      (fun a' s hs hlt' => recurRemoveAssociation_total st0 hwf n a' s hs hlt')
      (st.getArray (childsKey a)) st hsub
      (fun c hc => hsub (childsKey a) c hc) hlt
    simpa only [recurRemoveAssociation] using this

/-! ## Anchor records (StorageService.getAnchor / saveAnchor)

The storage service keys anchor records by `lto:anchor:${hash.toLowerCase()}`.
The backing object store (`getObject`/`addObject`) is not in the analysed
sources; per the spec an AnchorRecord is a "hex-encoded hash → set of
transaction ids that anchored it. Created on first anchor, appended to on
subsequent anchors of the same hash; never deleted", and an absent key
reads as empty. -/

/-- Modelled from the spec: the backend object store as used for anchor
records (`getObject`/`addObject` of the storage interface, whose
Redis/LevelDB implementations are not in the analysed sources): a map
from key strings to the set of transaction ids recorded under that key;
`addObject` appends an id not already present, an absent key is empty. -/
structure ObjStore where
  objects : String → List String

namespace ObjStore

def getObject (st : ObjStore) (key : String) : List String :=
  st.objects key

def addObject (st : ObjStore) (key value : String) : ObjStore :=
  ⟨fun k =>
    if k = key then
      if value ∈ st.objects key then st.objects key else st.objects key ++ [value]
    else st.objects k⟩

def empty : ObjStore := ⟨fun _ => []⟩

theorem mem_getObject_addObject (st : ObjStore) (key value k x : String) :
    x ∈ (st.addObject key value).getObject k ↔
      x ∈ st.getObject k ∨ (k = key ∧ x = value) := by
  unfold addObject getObject
  by_cases hk : k = key
  · subst hk
    by_cases hm : value ∈ st.objects k
    · simp [hm]
      exact fun h => h ▸ hm
    · simp [hm]
  · simp [hk]

end ObjStore

/-- JavaScript's `String.prototype.toLowerCase` as used on hex hash
strings: lower-case each character. -/
def jsToLowerCase (s : String) : String :=
  ⟨s.data.map Char.toLower⟩

theorem char_toLower_idem (c : Char) : c.toLower.toLower = c.toLower := by
  unfold Char.toLower
  by_cases h : c.toNat ≥ 65 ∧ c.toNat ≤ 90
  · rw [if_pos h]
    have hvalid : (c.toNat + 32).isValidChar := Or.inl (by omega)
    have hval : (Char.ofNat (c.toNat + 32)).toNat = c.toNat + 32 := by
      rw [Char.ofNat, dif_pos hvalid]
      rfl
    rw [hval, if_neg (by omega)]
  · rw [if_neg h, if_neg h]

theorem jsToLowerCase_idem (s : String) : jsToLowerCase (jsToLowerCase s) = jsToLowerCase s := by
  unfold jsToLowerCase
  simp only [List.map_map]
  congr 1
  exact List.map_congr_left (fun c _ => char_toLower_idem c)

def getAnchor (st : ObjStore) (hash : String) : List String :=
  st.getObject ("lto:anchor:" ++ jsToLowerCase hash)

def saveAnchor (st : ObjStore) (hash transaction : String) : ObjStore :=
  st.addObject ("lto:anchor:" ++ jsToLowerCase hash) transaction

/-! ## Encoder and the anchor monitor's transaction dispatch

The encoder service (hex/base64/base58, "pure, no I/O", out of scope per
the spec) is an injected dependency; the embedding takes it as a
parameter, so every theorem below holds for any encoder. -/

structure Encoder where
  hexEncode : List Nat → String
  base64Decode : String → List Nat
  base58Decode : String → List Nat

/-- Remove the first occurrence of `pat` from a character list:
JavaScript's `value.replace(pat, '')` for a non-empty plain-string
pattern. -/
def removeFirst (pat : List Char) : List Char → List Char
  | [] => []
  | c :: rest =>
    if (c :: rest).take pat.length = pat then (c :: rest).drop pat.length
    else c :: removeFirst pat rest

/-- JavaScript's `value.replace('base64:', '')` on a string. -/
def stripBase64Token (value : String) : String :=
  ⟨removeFirst ("base64:".data) value.data⟩

theorem removeFirst_append {pat : List Char} (t : List Char) (c : Char) (cs : List Char)
    (hp : pat = c :: cs) : removeFirst pat (pat ++ t) = t := by
  subst hp
  show removeFirst (c :: cs) (c :: (cs ++ t)) = t
  rw [removeFirst]
  rw [if_pos]
  · show (c :: (cs ++ t)).drop (cs.length + 1) = t
    simp only [List.drop_succ_cons]
    exact List.drop_left cs t
  · show (c :: (cs ++ t)).take (cs.length + 1) = c :: cs
    simp only [List.take_succ_cons]
    rw [List.take_left cs t]

theorem stripBase64Token_append (b64 : String) :
    stripBase64Token ("base64:" ++ b64) = b64 := by
  unfold stripBase64Token
  have : ("base64:" ++ b64).data = "base64:".data ++ b64.data := String.data_append _ _
  rw [this, removeFirst_append b64.data 'b' "ase64:".data rfl]

/-- The anchor marker constant `'⚓'` (the anchor symbol) used as the
key of legacy type-12 data items. -/
def anchorToken : String := "⚓"

/-- The transaction types the monitor processes beyond generic indexing. -/
def transactionTypes : List Nat := [12, 15]

/-- The sequential loop over a type-12 transaction's legacy data items:
for each item whose key is the anchor token, strip the `base64:` marker,
decode, and save the anchor — each write awaited before the next item. -/
def processDataItems (E : Encoder) (txid : String) (st : ObjStore) :
    List DataItem → ObjStore
  | [] => st
  | item :: rest =>
    if item.key = anchorToken then
      let value := stripBase64Token item.value
      processDataItems E txid
        (saveAnchor st (E.hexEncode (E.base64Decode value)) txid) rest
    else processDataItems E txid st rest

/-- The observable outcome of `processTransaction` at the moment its
promise resolves: `store` holds the anchor writes that have completed by
then, `issued` the `saveAnchor` writes that were merely dispatched. The
type-15 branch iterates `transaction.anchors.forEach(async (anchor) => {
... await saveAnchor ... })`: `forEach` ignores the promises its async
callbacks return, so those writes are issued but not awaited — the
function resolves without waiting for them. -/
structure ProcessResult where
  store : ObjStore
  issued : List (String × String)

/-- Embeds `AnchorMonitorService.processTransaction` (without the
unconditional generic `indexer.index` call, which touches only the ranked
transaction index, not anchor records). -/
def processTransaction (E : Encoder) (st : ObjStore) (tx : Transaction) : ProcessResult :=
  if tx.type ∉ transactionTypes then ⟨st, []⟩
  else if tx.type = 12 then
    match tx.data with
    | some items => ⟨processDataItems E tx.id st items, []⟩
    | none => ⟨st, []⟩
  else
    match tx.anchors with
    | some anchors =>
      ⟨st, anchors.map (fun anchor => (E.hexEncode (E.base58Decode anchor), tx.id))⟩
    | none => ⟨st, []⟩

/-! ## Checkpoint reader (StorageService.getProcessingHeight)

The reader wraps the backend `getValue('lto:processing-height')` in
`try { ... } catch (e) { }`: a throwing read leaves `height` undefined,
and the function then returns `height ? Number(height) : null`. The
embedding takes the backend read's outcome — a raised error, a missing
value, or a stored string — as its argument. Its return type is `Option
Nat`: the reader never propagates a failure. -/

/-- JavaScript's `Number(s)` on the digit strings the checkpoint writer
(`saveProcessingHeight`, which stores `String(height)`) produces. -/
def jsNumber (s : String) : Nat :=
  s.toNat?.getD 0

def getProcessingHeight (read : Except String (Option String)) : Option Nat :=
  match read with
  | Except.error _ => none
  | Except.ok none => none
  | Except.ok (some height) => if height = "" then none else some (jsNumber height)

/-! ## Block scanner (AnchorMonitorService.checkNewBlock)

`checkNewBlock` reads the node's current height, computes
`lastHeight = (await getProcessingHeight() || this.lastBlock) + 1`, and
for each height up to the current height fetches the block, processes
every transaction in it in order, and saves the processing height. The
embedding renders one scan pass as the sequence of its observable events. -/

structure Block where
  height : Nat
  transactions : List Transaction

/-- The node client: current chain height and the block at each height
(`getLastBlockHeight` / `getBlock`). -/
structure ChainEnv where
  currentHeight : Nat
  blockAt : Nat → Block

inductive ScanEvent where
  | fetchBlock (height : Nat)
  | transaction (height : Nat) (txid : String)
  | saveHeight (height : Nat)
deriving DecidableEq

/-- JavaScript's `a || b` on `getProcessingHeight()`'s result: the saved
checkpoint when it is neither `null` nor `0`, the fallback otherwise. -/
def jsOrNat : Option Nat → Nat → Nat
  | some c, lastBlock => if c = 0 then lastBlock else c
  | none, lastBlock => lastBlock

/-- The first height a scan pass fetches:
`(await getProcessingHeight() || this.lastBlock) + 1`. -/
def nextHeight (checkpoint : Option Nat) (lastBlock : Nat) : Nat :=
  jsOrNat checkpoint lastBlock + 1

/-- The events of processing one height inside the scan loop: fetch the
block, process each of its transactions in array order (each awaited),
then save the processing height. -/
def blockEvents (env : ChainEnv) (h : Nat) : List ScanEvent :=
  ScanEvent.fetchBlock h ::
    ((env.blockAt h).transactions.map (fun tx => ScanEvent.transaction h tx.id) ++
      [ScanEvent.saveHeight h])

/-- The heights one scan pass visits: `lastHeight`, …, `currentHeight`
(empty when `lastHeight > currentHeight`). -/
def heightsToScan (env : ChainEnv) (checkpoint : Option Nat) (lastBlock : Nat) : List Nat :=
  List.range' (nextHeight checkpoint lastBlock)
    (env.currentHeight + 1 - nextHeight checkpoint lastBlock)

/-- The event trace of one `checkNewBlock` scan pass. -/
def checkNewBlockTrace (env : ChainEnv) (checkpoint : Option Nat) (lastBlock : Nat) :
    List ScanEvent :=
  (heightsToScan env checkpoint lastBlock).flatMap (blockEvents env)

def blockOf : ScanEvent → Nat
  | ScanEvent.fetchBlock h => h
  | ScanEvent.transaction h _ => h
  | ScanEvent.saveHeight h => h

def fetchedHeights (tr : List ScanEvent) : List Nat :=
  tr.filterMap fun e =>
    match e with
    | ScanEvent.fetchBlock h => some h
    | _ => none

/-! ## Trust role resolver (StorageService.getTrustNetworkRoles)

The resolver reads the static role-definition table from configuration
and the address's raw role-assignment object from storage, then
accumulates across the assigned role names. The embedding takes the
table as a function and the assignment object's key list (in `for…in`
iteration order) as arguments. -/

structure IssueEntry where
  role : String
  type : Nat
deriving DecidableEq

structure ConfigRole where
  issues : Option (List IssueEntry)
  authorization : Option (List String)
deriving DecidableEq

structure RoleData where
  roles : List String
  issues_roles : List IssueEntry
  issues_authorization : List String
deriving DecidableEq

/-- One `configData.issues?.forEach` step: push the issue entry unless an
entry with the same role name is already accumulated
(`findIndex(each => each.role === eachIssues.role) === -1`). -/
def issuesStep (l : List IssueEntry) (e : IssueEntry) : List IssueEntry :=
  if (l.findIdx? fun each => each.role == e.role) = none then l ++ [e] else l

/-- One `configData.authorization?.forEach` step: push the scope unless
already accumulated (`findIndex(each => each === eachAuthorization) === -1`). -/
def authStep (l : List String) (s : String) : List String :=
  if (l.findIdx? fun each => each == s) = none then l ++ [s] else l

/-- The body of the `for (const role in roles)` loop: an assigned role
name missing from the definition table contributes nothing; a defined
one is pushed to `roles` and its configured lists merged in. -/
def trustStep (configRoles : String → Option ConfigRole) (acc : RoleData) (role : String) :
    RoleData :=
  match configRoles role with
  | none => acc
  | some configData =>
    { roles := acc.roles ++ [role],
      issues_roles := (configData.issues.getD []).foldl issuesStep acc.issues_roles,
      issues_authorization :=
        (configData.authorization.getD []).foldl authStep acc.issues_authorization }

def getTrustNetworkRoles (configRoles : String → Option ConfigRole)
    (assigned : List String) : RoleData :=
  assigned.foldl (trustStep configRoles) ⟨[], [], []⟩

/-! ## What the cascade removes -/

theorem childsKey_eq_parentsKey_iff (a b : String) : childsKey a = parentsKey b ↔ False :=
  iff_false_intro (childsKey_ne_parentsKey a b)

theorem parentsKey_eq_childsKey_iff (a b : String) : parentsKey a = childsKey b ↔ False :=
  iff_false_intro (parentsKey_ne_childsKey a b)

theorem not_mem_of_sremPair_childs (st : SetStore) (a c : String) :
    c ∉ ((st.srem (childsKey a) c).srem (parentsKey c) a).getArray (childsKey a) := by
  intro h
  have h1 := (SetStore.mem_getArray_srem _ _ _ _ _).mp h
  have h2 := (SetStore.mem_getArray_srem _ _ _ _ _).mp h1.1
  exact h2.2 ⟨rfl, rfl⟩

theorem not_mem_of_sremPair_parents (st : SetStore) (a c : String) :
    a ∉ ((st.srem (childsKey a) c).srem (parentsKey c) a).getArray (parentsKey c) := by
  intro h
  have h1 := (SetStore.mem_getArray_srem _ _ _ _ _).mp h
  exact h1.2 ⟨rfl, rfl⟩

theorem recurStep_not_mem_childs
    (recur : SetStore → String → Option SetStore)
    (hrec : ∀ s x s', recur s x = some s' → SetStore.Subset s' s)
    (address : String) :
    ∀ (l : List String) (st st' : SetStore),
      recurStep recur address l st = some st' →
      ∀ c ∈ l, c ∉ st'.getArray (childsKey address)
  | [], _, _, _, c, hc => absurd hc (List.not_mem_nil c)
  | child :: rest, st, st', heq, c, hc => by
    simp only [recurStep] at heq
    cases hr : recur ((st.srem (childsKey address) child).srem (parentsKey child) address) child with
    | none => rw [hr] at heq; exact absurd heq (by simp)
    | some st2 =>
      rw [hr] at heq
      rcases List.mem_cons.mp hc with hc | hc
      · subst hc
        intro hmem
        have hsub : SetStore.Subset st' st2 :=
          recurStep_subset recur hrec address rest st2 st' heq
        have hmem2 := hsub _ _ hmem
        have hmem1 := hrec _ _ _ hr _ _ hmem2
        exact not_mem_of_sremPair_childs st address c hmem1
      · exact recurStep_not_mem_childs recur hrec address rest st2 st' heq c hc

theorem recurStep_not_mem_parents
    (recur : SetStore → String → Option SetStore)
    (hrec : ∀ s x s', recur s x = some s' → SetStore.Subset s' s)
    (address : String) :
    ∀ (l : List String) (st st' : SetStore),
      recurStep recur address l st = some st' →
      ∀ c ∈ l, address ∉ st'.getArray (parentsKey c)
  | [], _, _, _, c, hc => absurd hc (List.not_mem_nil c)
  | child :: rest, st, st', heq, c, hc => by
    simp only [recurStep] at heq
    cases hr : recur ((st.srem (childsKey address) child).srem (parentsKey child) address) child with
    | none => rw [hr] at heq; exact absurd heq (by simp)
    | some st2 =>
      rw [hr] at heq
      rcases List.mem_cons.mp hc with hc | hc
      · subst hc
        intro hmem
        have hsub : SetStore.Subset st' st2 :=
          recurStep_subset recur hrec address rest st2 st' heq
        have hmem2 := hsub _ _ hmem
        have hmem1 := hrec _ _ _ hr _ _ hmem2
        exact not_mem_of_sremPair_parents st address c hmem1
      · exact recurStep_not_mem_parents recur hrec address rest st2 st' heq c hc

/-- After a successful cascade at `address`, its children set is empty:
every child in the entry snapshot is removed and nothing is ever added. -/
theorem recurRemoveAssociation_childs_nil (fuel : Nat) (st : SetStore) (a : String)
    (st' : SetStore) (heq : recurRemoveAssociation fuel st a = some st') :
    st'.getArray (childsKey a) = [] := by
  cases fuel with
  | zero => exact absurd heq (by simp [recurRemoveAssociation])
  | succ n =>
    simp only [recurRemoveAssociation] at heq
    rw [List.eq_nil_iff_forall_not_mem]
    intro x hx
    have hsubst : SetStore.Subset st' st :=
      recurStep_subset (recurRemoveAssociation n)
        (fun s a' s' he => recurRemoveAssociation_subset n s a' s' he) a _ st st' heq
    have hxsnap : x ∈ st.getArray (childsKey a) := hsubst _ _ hx
    exact recurStep_not_mem_childs (recurRemoveAssociation n)
      (fun s a' s' he => recurRemoveAssociation_subset n s a' s' he)
      a _ st st' heq x hxsnap hx

/-- After a successful cascade at `address`, `address` has been removed
from the parents set of every child in the entry snapshot. -/
theorem recurRemoveAssociation_not_mem_parents (fuel : Nat) (st : SetStore) (a : String)
    (st' : SetStore) (heq : recurRemoveAssociation fuel st a = some st') :
    ∀ c ∈ st.getArray (childsKey a), a ∉ st'.getArray (parentsKey c) := by
  cases fuel with
  | zero => exact absurd heq (by simp [recurRemoveAssociation])
  | succ n =>
    simp only [recurRemoveAssociation] at heq
    exact recurStep_not_mem_parents (recurRemoveAssociation n)
      (fun s a' s' he => recurRemoveAssociation_subset n s a' s' he)
      a _ st st' heq

/-! ## Claim C4: the cascade in the two-children scenario -/

/-- An association transaction as the graph manager reads it: only
`sender` (the parent) and `party` (the child) are consulted. -/
def assocTx (sender party : String) : Transaction :=
  ⟨"", 16, sender, party, none, none⟩

/-- The C4 scenario: A has child B; B has children C and D; the three
mirrored parent entries; no other edges. -/
def cascadeStore (A B C D : String) : SetStore :=
  ⟨fun k =>
    if k = childsKey A then [B]
    else if k = parentsKey B then [A]
    else if k = childsKey B then [C, D]
    else if k = parentsKey C then [B]
    else if k = parentsKey D then [B]
    else []⟩

/-- C4: `removeAssociation(A, B)`, when B has children C and D with no
further descendants, terminates and leaves A with no child B, B with no
children, and both C and D with no parent B: the cascade performs the two
mirrored edge-pair removals for B–C and B–D beyond the initial A–B pair. -/
theorem removeAssociation_cascade (A B C D : String)
    (hAB : A ≠ B) (hAC : A ≠ C) (hAD : A ≠ D)
    (hBC : B ≠ C) (hBD : B ≠ D) (hCD : C ≠ D) :
    ∃ st', removeAssociation 2 (cascadeStore A B C D) (assocTx A B) = some st' ∧
      B ∉ st'.getArray (childsKey A) ∧
      st'.getArray (childsKey B) = [] ∧
      B ∉ st'.getArray (parentsKey C) ∧
      B ∉ st'.getArray (parentsKey D) := by
  have hBA : B ≠ A := Ne.symm hAB
  have hCB : C ≠ B := Ne.symm hBC
  have hDB : D ≠ B := Ne.symm hBD
  have hCA : C ≠ A := Ne.symm hAC
  have hDA : D ≠ A := Ne.symm hAD
  have hDC : D ≠ C := Ne.symm hCD
  obtain ⟨st', hrun⟩ :
      ∃ st', removeAssociation 2 (cascadeStore A B C D) (assocTx A B) = some st' := by
    show ∃ st', removeAssociation (Nat.succ (Nat.succ Nat.zero))
      (cascadeStore A B C D) (assocTx A B) = some st'
    simp [removeAssociation, recurRemoveAssociation, recurStep, assocTx, cascadeStore,
      SetStore.srem, SetStore.getArray, childsKey_eq_iff, parentsKey_eq_iff,
      childsKey_eq_parentsKey_iff, parentsKey_eq_childsKey_iff,
      hAB, hBA, hAC, hCA, hAD, hDA, hBC, hCB, hBD, hDB, hCD, hDC]
  have hrun2 : recurRemoveAssociation 2
      (((cascadeStore A B C D).srem (childsKey A) B).srem (parentsKey B) A) B = some st' := hrun
  have hsub : SetStore.Subset st'
      (((cascadeStore A B C D).srem (childsKey A) B).srem (parentsKey B) A) :=
    recurRemoveAssociation_subset 2 _ B st' hrun2
  have hsnapB :
      (((cascadeStore A B C D).srem (childsKey A) B).srem (parentsKey B) A).getArray
        (childsKey B) = [C, D] := by
    simp [cascadeStore, SetStore.srem, SetStore.getArray, childsKey_eq_iff, parentsKey_eq_iff,
      childsKey_eq_parentsKey_iff, parentsKey_eq_childsKey_iff, hBA]
  refine ⟨st', hrun, ?_, ?_, ?_, ?_⟩
  · intro hmem
    exact not_mem_of_sremPair_childs (cascadeStore A B C D) A B (hsub _ _ hmem)
  · exact recurRemoveAssociation_childs_nil 2 _ B st' hrun2
  · exact recurRemoveAssociation_not_mem_parents 2 _ B st' hrun2 C
      (by rw [hsnapB]; exact List.mem_cons_self C [D])
  · exact recurRemoveAssociation_not_mem_parents 2 _ B st' hrun2 D
      (by rw [hsnapB]; exact List.mem_cons_of_mem C (List.mem_cons_self D []))

/-- Witness for C4 at the concrete addresses "A", "B", "C", "D". -/
theorem removeAssociation_cascade_witness :
    ∃ st', removeAssociation 2 (cascadeStore "A" "B" "C" "D") (assocTx "A" "B") = some st' ∧
      "B" ∉ st'.getArray (childsKey "A") ∧
      st'.getArray (childsKey "B") = [] ∧
      "B" ∉ st'.getArray (parentsKey "C") ∧
      "B" ∉ st'.getArray (parentsKey "D") :=
  removeAssociation_cascade "A" "B" "C" "D" (by decide) (by decide) (by decide)
    (by decide) (by decide) (by decide)

/-! ## Claim C5: the mirror-edge invariant is preserved -/

/-- C5: if the mirror-edge invariant (`c` is in `p`'s children set iff
`p` is in `c`'s parents set) holds, it still holds after
`saveAssociation`, after a completed `removeAssociation`, and after any
completed run of the recursive cascade `recurRemoveAssociation`: each
updates the two sets together. -/
theorem mirror_invariant_preserved (st : SetStore) (h : Mirrored st) (tx : Transaction) :
    Mirrored (saveAssociation st tx) ∧
    (∀ fuel st', removeAssociation fuel st tx = some st' → Mirrored st') ∧
    (∀ fuel address st', recurRemoveAssociation fuel st address = some st' → Mirrored st') :=
  ⟨mirrored_saveAssociation h tx,
   fun fuel st' heq => mirrored_removeAssociation h fuel tx st' heq,
   fun fuel address st' heq => mirrored_recurRemoveAssociation fuel st address st' h heq⟩

/-- Witness for C5 at the empty store and a concrete association. -/
theorem mirror_invariant_preserved_witness :
    Mirrored (saveAssociation SetStore.empty (assocTx "A" "B")) ∧
    (∀ fuel st', removeAssociation fuel SetStore.empty (assocTx "A" "B") = some st' →
      Mirrored st') ∧
    (∀ fuel address st',
      recurRemoveAssociation fuel SetStore.empty address = some st' → Mirrored st') :=
  mirror_invariant_preserved SetStore.empty
    (fun p c => by simp [SetStore.getArray, SetStore.empty]) (assocTx "A" "B")

/-! ## Claim C6: the cascade terminates on acyclic graphs -/

/-- C6: when the association adjacency graph is acyclic — rendered as
well-foundedness of the store's child relation, the precondition the
source relies on without performing any cycle detection — some fuel makes
`removeAssociation` (and with it the recursive cascade, which bottoms out
at addresses with no children) return successfully. -/
theorem removeAssociation_terminates (st : SetStore) (tx : Transaction)
    (hacyc : WellFounded (childRel st)) :
    ∃ fuel st', removeAssociation fuel st tx = some st' := by
  have hsub : SetStore.Subset
      ((st.srem (childsKey tx.sender) tx.party).srem (parentsKey tx.party) tx.sender) st :=
    sremPair_subset st tx.sender tx.party
  obtain ⟨st', heq, -⟩ :=
    recurRemoveAssociation_total st hacyc (descHeight st hacyc tx.party + 1) tx.party _
      hsub (Nat.lt_succ_self _)
  exact ⟨_, st', heq⟩

/-- Witness for C6 at the empty store, whose child relation is trivially
well-founded. -/
theorem removeAssociation_terminates_witness :
    ∃ fuel st', removeAssociation fuel SetStore.empty (assocTx "A" "B") = some st' :=
  removeAssociation_terminates SetStore.empty (assocTx "A" "B")
    ⟨fun a => Acc.intro a (fun y hy => absurd hy (List.not_mem_nil y))⟩

/-! ## Claim C7: checkpoint read failures are swallowed -/

/-- C7: a storage error while reading the persisted processing height is
swallowed: `getProcessingHeight` returns `none`, exactly as when no
checkpoint exists, and (by its very return type `Option Nat`) never
propagates the failure to its caller. -/
theorem getProcessingHeight_swallows_read_failure (err : String) :
    getProcessingHeight (Except.error err) = none ∧
    getProcessingHeight (Except.error err) = getProcessingHeight (Except.ok none) :=
  ⟨rfl, rfl⟩

/-! ## Claim C10: anchor storage is case-insensitive in the hash -/

/-- C10: `saveAnchor` and `getAnchor` both address the key derived from
the lower-cased hash, so `getAnchor h` agrees with `getAnchor
(h.toLowerCase())`, saving under two casings of the same hash writes the
same key, and an anchor saved under one casing is retrievable under any
other. -/
theorem anchor_storage_case_insensitive (st : ObjStore) (h h1 h2 t : String)
    (hcase : jsToLowerCase h1 = jsToLowerCase h2) :
    getAnchor st h = getAnchor st (jsToLowerCase h) ∧
    saveAnchor st h1 t = saveAnchor st h2 t ∧
    t ∈ getAnchor (saveAnchor st h1 t) h2 := by
  refine ⟨?_, ?_, ?_⟩
  · unfold getAnchor
    rw [jsToLowerCase_idem]
  · unfold saveAnchor
    rw [hcase]
  · unfold getAnchor saveAnchor
    rw [hcase]
    exact (ObjStore.mem_getObject_addObject _ _ _ _ _).mpr (Or.inr ⟨rfl, rfl⟩)

/-- Witness for C10 at concrete casings of one hash. -/
theorem anchor_storage_case_insensitive_witness :
    getAnchor ObjStore.empty "Ab" = getAnchor ObjStore.empty (jsToLowerCase "Ab") ∧
    saveAnchor ObjStore.empty "AB" "t1" = saveAnchor ObjStore.empty "ab" "t1" ∧
    "t1" ∈ getAnchor (saveAnchor ObjStore.empty "AB" "t1") "ab" :=
  anchor_storage_case_insensitive ObjStore.empty "Ab" "AB" "ab" "t1" (by decide)

/-! ## Claim C8: legacy type-12 anchors are decoded and recorded -/

theorem mem_getAnchor_saveAnchor_self (st : ObjStore) (hash t : String) :
    t ∈ getAnchor (saveAnchor st hash t) hash :=
  (ObjStore.mem_getObject_addObject _ _ _ _ _).mpr (Or.inr ⟨rfl, rfl⟩)

theorem mem_getAnchor_saveAnchor_of_mem {st : ObjStore} {hash t : String}
    (hash' t' : String) (h : t ∈ getAnchor st hash) :
    t ∈ getAnchor (saveAnchor st hash' t') hash :=
  (ObjStore.mem_getObject_addObject _ _ _ _ _).mpr (Or.inl h)

theorem mem_getAnchor_processDataItems_of_mem (E : Encoder) (txid hash t : String) :
    ∀ (items : List DataItem) (st : ObjStore), t ∈ getAnchor st hash →
      t ∈ getAnchor (processDataItems E txid st items) hash
  | [], _, h => h
  | item :: rest, st, h => by
    unfold processDataItems
    by_cases hkey : item.key = anchorToken
    · rw [if_pos hkey]
      exact mem_getAnchor_processDataItems_of_mem E txid hash t rest _
        (mem_getAnchor_saveAnchor_of_mem _ _ h)
    · rw [if_neg hkey]
      exact mem_getAnchor_processDataItems_of_mem E txid hash t rest st h

theorem processDataItems_records (E : Encoder) (txid b64 : String) :
    ∀ (items : List DataItem) (st : ObjStore),
      (⟨anchorToken, "base64:" ++ b64⟩ : DataItem) ∈ items →
      txid ∈ getAnchor (processDataItems E txid st items)
        (E.hexEncode (E.base64Decode b64))
  | item :: rest, st, hmem => by
    rcases List.mem_cons.mp hmem with heq | hmem
    · subst heq
      unfold processDataItems
      rw [if_pos rfl, stripBase64Token_append]
      exact mem_getAnchor_processDataItems_of_mem E txid _ txid rest _
        (mem_getAnchor_saveAnchor_self _ _ _)
    · unfold processDataItems
      by_cases hkey : item.key = anchorToken
      · rw [if_pos hkey]
        exact processDataItems_records E txid b64 rest _ hmem
      · rw [if_neg hkey]
        exact processDataItems_records E txid b64 rest st hmem

/-- C8: for a type-12 transaction carrying a legacy data item whose key
is the anchor marker and whose value is `"base64:" ++ b64`, processing
records an anchor under the key `hexEncode(base64Decode(b64))` — the
fixed `base64:` marker stripped before decoding — whose entry set
contains the transaction's id. Holds for every encoder. -/
theorem legacy_anchor_recorded (E : Encoder) (st : ObjStore) (tx : Transaction)
    (items : List DataItem) (b64 : String)
    (htype : tx.type = 12) (hdata : tx.data = some items)
    (hitem : (⟨anchorToken, "base64:" ++ b64⟩ : DataItem) ∈ items) :
    tx.id ∈ getAnchor (processTransaction E st tx).store
      (E.hexEncode (E.base64Decode b64)) := by
  unfold processTransaction
  rw [htype, hdata]
  simp only [transactionTypes, List.mem_cons, List.not_mem_nil, or_false]
  norm_num
  exact processDataItems_records E tx.id b64 items st hitem

/-- A concrete encoder for witnesses (the theorems hold for every encoder). -/
def unitEncoder : Encoder :=
  ⟨fun _ => "cafe", fun _ => [1], fun _ => [2]⟩

/-- A concrete legacy type-12 anchor transaction. -/
def tx12cex : Transaction :=
  ⟨"t1", 12, "s", "", some [⟨anchorToken, "base64:" ++ "aGk="⟩], none⟩

/-- Witness for C8 at a concrete transaction and encoder. -/
theorem legacy_anchor_recorded_witness :
    "t1" ∈ getAnchor (processTransaction unitEncoder ObjStore.empty tx12cex).store
      (unitEncoder.hexEncode (unitEncoder.base64Decode "aGk=")) :=
  legacy_anchor_recorded unitEncoder ObjStore.empty tx12cex
    [⟨anchorToken, "base64:" ++ "aGk="⟩] "aGk=" rfl rfl (List.mem_singleton.mpr rfl)

/-! ## Claim C2: type-15 anchor writes are not awaited (code bug)

`processTransaction`'s type-15 branch runs
`transaction.anchors.forEach(async (anchor) => { ... await
this.storage.saveAnchor(...) })`. `Array.prototype.forEach` discards the
promises returned by the async callbacks, so the `saveAnchor` writes are
dispatched but nothing awaits them: the function's own promise resolves
with the writes merely issued, and the transaction is considered indexed
(and the block's checkpoint may be persisted) before the anchor storage
writes are known to have completed — exactly the ordering hazard the spec
flags (§5, §9) as "a correctness bug class to close, not preserve". -/

/-- A concrete native type-15 anchor transaction carrying one anchor. -/
def tx15cex : Transaction :=
  ⟨"t1", 15, "s", "", none, some ["a"]⟩

/-- C2 (code-bug evaluation): at the moment `processTransaction` resolves
for a type-15 transaction with one anchor, the anchor write has been
issued but has not completed — the anchor store is untouched and the
decoded hash is not retrievable, contradicting the claim that every
anchor's storage write completes before the transaction counts as
indexed. -/
theorem type15_anchor_write_not_awaited :
    (processTransaction unitEncoder ObjStore.empty tx15cex).issued =
      [(unitEncoder.hexEncode (unitEncoder.base58Decode "a"), "t1")] ∧
    (processTransaction unitEncoder ObjStore.empty tx15cex).store = ObjStore.empty ∧
    "t1" ∉ getAnchor (processTransaction unitEncoder ObjStore.empty tx15cex).store
      (unitEncoder.hexEncode (unitEncoder.base58Decode "a")) :=
  ⟨rfl, rfl, List.not_mem_nil "t1"⟩

/-! ## Claim C1: where a scan pass starts

The source computes `lastHeight = (await getProcessingHeight() ||
this.lastBlock) + 1`: JavaScript's `||` takes the saved checkpoint
whenever it is neither `null` nor `0`, even when it is smaller than the
last known height — it is not `max(checkpoint, lastKnownHeight)`. -/

theorem fetchedHeights_flatMap (env : ChainEnv) :
    ∀ l : List Nat, fetchedHeights (l.flatMap (blockEvents env)) = l
  | [] => rfl
  | h :: t => by
    unfold fetchedHeights blockEvents
    simp only [List.flatMap_cons, List.filterMap_append, List.filterMap_cons]
    rw [List.filterMap_map]
    have htx : ∀ txs : List Transaction,
        txs.filterMap ((fun e =>
          match e with
          | ScanEvent.fetchBlock h => some h
          | _ => none) ∘ (fun tx => ScanEvent.transaction h tx.id)) = [] := by
      intro txs
      induction txs with
      | nil => rfl
      | cons tx rest ih =>
        rw [List.filterMap_cons]
        exact ih
    rw [htx]
    simpa [fetchedHeights] using fetchedHeights_flatMap env t

/-- The chain used by concrete scanner examples: current height 12,
every block empty. -/
def cexEnv : ChainEnv := ⟨12, fun h => ⟨h, []⟩⟩

/-- Counterexample to C1 as stated: with saved checkpoint 5 and last
known height 10, the pass begins fetching at height 6 = 5 + 1, not at
max(5, 10) + 1 = 11 — the code computes `(checkpoint || lastBlock) + 1`,
which prefers any nonzero checkpoint over the last known height. -/
theorem checkNewBlock_start_not_max :
    (fetchedHeights (checkNewBlockTrace cexEnv (some 5) 10)).head? = some 6 ∧
    6 ≠ Nat.max 5 10 + 1 := by
  constructor
  · rfl
  · decide

/-- C1 (amended): for every checkpoint/lastBlock configuration, a scan
pass fetches exactly the heights from `nextHeight` up to the node's
current height inclusive, where `nextHeight` is `checkpoint + 1` whenever
a nonzero checkpoint is saved — the checkpoint takes priority even when
it is smaller than the last known height — and `lastKnownHeight + 1` when
the checkpoint is absent or zero; whenever the checkpoint is at least the
last known height this start equals `max(checkpoint, lastKnownHeight) + 1`. -/
theorem checkNewBlock_scan_range (env : ChainEnv) (checkpoint : Option Nat)
    (lastBlock : Nat) :
    fetchedHeights (checkNewBlockTrace env checkpoint lastBlock) =
      List.range' (nextHeight checkpoint lastBlock)
        (env.currentHeight + 1 - nextHeight checkpoint lastBlock) ∧
    (∀ c, checkpoint = some c → c ≠ 0 → nextHeight checkpoint lastBlock = c + 1) ∧
    (checkpoint = none ∨ checkpoint = some 0 →
      nextHeight checkpoint lastBlock = lastBlock + 1) ∧
    (∀ c, checkpoint = some c → c ≠ 0 → lastBlock ≤ c →
      nextHeight checkpoint lastBlock = Nat.max c lastBlock + 1) := by
  refine ⟨?_, ?_, ?_, ?_⟩
  · unfold checkNewBlockTrace heightsToScan
    exact fetchedHeights_flatMap env _
  · intro c hc hne
    subst hc
    simp [nextHeight, jsOrNat, hne]
  · rintro (rfl | rfl) <;> simp [nextHeight, jsOrNat]
  · intro c hc hne hle
    subst hc
    simp [nextHeight, jsOrNat, hne, Nat.max_eq_left hle]

/-- Witness for the amended C1 on the concrete chain of current height
12: with checkpoint 5 and last known height 10 the pass fetches heights
6 through 12 (the smaller nonzero checkpoint takes priority), and with no
checkpoint the start is the last known height plus one. -/
theorem checkNewBlock_scan_range_witness :
    fetchedHeights (checkNewBlockTrace cexEnv (some 5) 10) =
      List.range' (nextHeight (some 5) 10)
        (cexEnv.currentHeight + 1 - nextHeight (some 5) 10) ∧
    nextHeight (some 5) 10 = 5 + 1 ∧
    nextHeight none 10 = 10 + 1 :=
  have h5 := checkNewBlock_scan_range cexEnv (some 5) 10
  have hn := checkNewBlock_scan_range cexEnv none 10
  ⟨h5.1, h5.2.1 5 rfl (by decide), hn.2.2.1 (Or.inl rfl)⟩

/-! ## Claim C9: trust role aggregation -/

/-- The configured issues-roles list of an assigned role name, empty when
the role is not in the definition table. -/
def issuesOf (configRoles : String → Option ConfigRole) (r : String) : List IssueEntry :=
  match configRoles r with
  | some configData => configData.issues.getD []
  | none => []

/-- The configured issues-authorization list of an assigned role name,
empty when the role is not in the definition table. -/
def authOf (configRoles : String → Option ConfigRole) (r : String) : List String :=
  match configRoles r with
  | some configData => configData.authorization.getD []
  | none => []

/-- Keep the first occurrence of each role name, skipping entries whose
role name was already seen: the spec's "deduplicated by role name — first
occurrence wins". -/
def keepFirstByRoleFrom (seen : List String) : List IssueEntry → List IssueEntry
  | [] => []
  | e :: rest =>
    if e.role ∈ seen then keepFirstByRoleFrom seen rest
    else e :: keepFirstByRoleFrom (seen ++ [e.role]) rest

def keepFirstByRole (l : List IssueEntry) : List IssueEntry :=
  keepFirstByRoleFrom [] l

/-- Keep the first occurrence of each string: the spec's "deduplicated by
exact match". -/
def keepFirstEqFrom (seen : List String) : List String → List String
  | [] => []
  | s :: rest =>
    if s ∈ seen then keepFirstEqFrom seen rest
    else s :: keepFirstEqFrom (seen ++ [s]) rest

def keepFirstEq (l : List String) : List String :=
  keepFirstEqFrom [] l

theorem findIdxRole_none_iff (l : List IssueEntry) (s : String) :
    ((l.findIdx? fun each => each.role == s) = none) ↔ s ∉ l.map IssueEntry.role := by
  rw [List.findIdx?_eq_none_iff]
  constructor
  · intro h hmem
    obtain ⟨x, hx, hxs⟩ := List.mem_map.mp hmem
    have hfalse := h x hx
    rw [hxs] at hfalse
    simp at hfalse
  · intro h x hx
    rw [beq_eq_false_iff_ne]
    exact fun heq => h (List.mem_map.mpr ⟨x, hx, heq⟩)

theorem findIdxEq_none_iff (l : List String) (s : String) :
    ((l.findIdx? fun each => each == s) = none) ↔ s ∉ l := by
  rw [List.findIdx?_eq_none_iff]
  constructor
  · intro h hmem
    have hfalse := h s hmem
    simp at hfalse
  · intro h x hx
    rw [beq_eq_false_iff_ne]
    exact fun heq => h (heq ▸ hx)

theorem foldl_issuesStep :
    ∀ (l : List IssueEntry) (acc : List IssueEntry),
      l.foldl issuesStep acc = acc ++ keepFirstByRoleFrom (acc.map IssueEntry.role) l
  | [], acc => by simp [keepFirstByRoleFrom]
  | e :: rest, acc => by
    rw [List.foldl_cons, keepFirstByRoleFrom]
    by_cases hmem : e.role ∈ acc.map IssueEntry.role
    · rw [if_pos hmem]
      have hstep : issuesStep acc e = acc := by
        unfold issuesStep
        rw [if_neg]
        rw [findIdxRole_none_iff]
        exact fun h => h hmem
      rw [hstep]
      exact foldl_issuesStep rest acc
    · rw [if_neg hmem]
      have hstep : issuesStep acc e = acc ++ [e] := by
        unfold issuesStep
        rw [if_pos ((findIdxRole_none_iff acc e.role).mpr hmem)]
      rw [hstep, foldl_issuesStep rest (acc ++ [e])]
      simp [List.map_append]

theorem foldl_authStep :
    ∀ (l : List String) (acc : List String),
      l.foldl authStep acc = acc ++ keepFirstEqFrom acc l
  | [], acc => by simp [keepFirstEqFrom]
  | s :: rest, acc => by
    rw [List.foldl_cons, keepFirstEqFrom]
    by_cases hmem : s ∈ acc
    · rw [if_pos hmem]
      have hstep : authStep acc s = acc := by
        unfold authStep
        rw [if_neg]
        rw [findIdxEq_none_iff]
        exact fun h => h hmem
      rw [hstep]
      exact foldl_authStep rest acc
    · rw [if_neg hmem]
      have hstep : authStep acc s = acc ++ [s] := by
        unfold authStep
        rw [if_pos ((findIdxEq_none_iff acc s).mpr hmem)]
      rw [hstep, foldl_authStep rest (acc ++ [s])]
      simp

theorem getTrustNetworkRoles_foldl (configRoles : String → Option ConfigRole) :
    ∀ (assigned : List String) (acc : RoleData),
      assigned.foldl (trustStep configRoles) acc =
        ⟨acc.roles ++ assigned.filter (fun r => (configRoles r).isSome),
         (assigned.flatMap (issuesOf configRoles)).foldl issuesStep acc.issues_roles,
         (assigned.flatMap (authOf configRoles)).foldl authStep acc.issues_authorization⟩
  | [], acc => by simp
  | r :: rest, acc => by
    rw [List.foldl_cons]
    cases hcfg : configRoles r with
    | none =>
      have hstep : trustStep configRoles acc r = acc := by
        unfold trustStep
        rw [hcfg]
      rw [hstep, getTrustNetworkRoles_foldl configRoles rest acc]
      simp [List.filter_cons, List.flatMap_cons, issuesOf, authOf, hcfg]
    | some configData =>
      have hstep : trustStep configRoles acc r =
          ⟨acc.roles ++ [r],
           (configData.issues.getD []).foldl issuesStep acc.issues_roles,
           (configData.authorization.getD []).foldl authStep acc.issues_authorization⟩ := by
        unfold trustStep
        rw [hcfg]
      rw [hstep, getTrustNetworkRoles_foldl configRoles rest _]
      simp [List.filter_cons, List.flatMap_cons, issuesOf, authOf, hcfg,
        List.foldl_append, List.append_assoc]

/-- C9: `getRoles(address)` returns exactly the assigned role names
present in the static role-definition table, its issues-roles list is the
concatenation of the matched roles' configured issues lists deduplicated
by role name with the first occurrence winning, its issues-authorization
list is the concatenation of their authorization lists deduplicated by
exact match, and an assigned role name absent from the table contributes
nothing to any of the three lists. -/
theorem getRoles_characterization (configRoles : String → Option ConfigRole)
    (assigned : List String) :
    (getTrustNetworkRoles configRoles assigned).roles =
      assigned.filter (fun r => (configRoles r).isSome) ∧
    (getTrustNetworkRoles configRoles assigned).issues_roles =
      keepFirstByRole (assigned.flatMap (issuesOf configRoles)) ∧
    (getTrustNetworkRoles configRoles assigned).issues_authorization =
      keepFirstEq (assigned.flatMap (authOf configRoles)) ∧
    (∀ ghost l1 l2, configRoles ghost = none → assigned = l1 ++ ghost :: l2 →
      getTrustNetworkRoles configRoles assigned =
        getTrustNetworkRoles configRoles (l1 ++ l2)) := by
  have haux := getTrustNetworkRoles_foldl configRoles assigned ⟨[], [], []⟩
  refine ⟨?_, ?_, ?_, ?_⟩
  · rw [getTrustNetworkRoles, haux]
    rfl
  · rw [getTrustNetworkRoles, haux]
    exact foldl_issuesStep _ []
  · rw [getTrustNetworkRoles, haux]
    exact foldl_authStep _ []
  · intro ghost l1 l2 hghost hsplit
    subst hsplit
    rw [getTrustNetworkRoles, getTrustNetworkRoles,
      getTrustNetworkRoles_foldl configRoles _ ⟨[], [], []⟩,
      getTrustNetworkRoles_foldl configRoles _ ⟨[], [], []⟩]
    simp [List.filter_append, List.filter_cons, List.flatMap_append, List.flatMap_cons,
      issuesOf, authOf, hghost]

/-- The definition table of the spec's C9 example: "validator" issues
role "node" and authorization scope "tx:anchor"; nothing else defined. -/
def cexConfig : String → Option ConfigRole := fun r =>
  if r = "validator" then some ⟨some [⟨"node", 0⟩], some ["tx:anchor"]⟩ else none

/-- Witness for C9 at the spec's example: an address assigned "validator"
and the undefined "ghost". -/
theorem getRoles_characterization_witness :
    (getTrustNetworkRoles cexConfig ["validator", "ghost"]).roles =
      (["validator", "ghost"].filter (fun r => (cexConfig r).isSome)) ∧
    getTrustNetworkRoles cexConfig ["validator", "ghost"] =
      getTrustNetworkRoles cexConfig (["validator"] ++ []) := by
  have h := getRoles_characterization cexConfig ["validator", "ghost"]
  exact ⟨h.1, h.2.2.2 "ghost" ["validator"] [] rfl rfl⟩

/-! ## Claim C3: block-by-block ordering of one scan pass -/

theorem blockOf_mem_blockEvents (env : ChainEnv) (hb : Nat) (e : ScanEvent)
    (he : e ∈ blockEvents env hb) : blockOf e = hb := by
  unfold blockEvents at he
  rcases List.mem_cons.mp he with rfl | he
  · rfl
  rcases List.mem_append.mp he with he | he
  · obtain ⟨tx, -, rfl⟩ := List.mem_map.mp he
    rfl
  · rw [List.mem_singleton.mp he]
    rfl

theorem blockEvents_length (env : ChainEnv) (hb : Nat) :
    (blockEvents env hb).length = (env.blockAt hb).transactions.length + 2 := by
  simp [blockEvents]

/-- In the event list of one block, `saveHeight` occurs only as the very
last event. -/
theorem blockEvents_save_last (env : ChainEnv) (hb k : Nat)
    (hk : k < (blockEvents env hb).length) (hsv : Nat)
    (hget : (blockEvents env hb).get ⟨k, hk⟩ = ScanEvent.saveHeight hsv) :
    k + 1 = (blockEvents env hb).length := by
  rw [List.get_eq_getElem] at hget
  rw [blockEvents_length]
  have hk2 : k < (env.blockAt hb).transactions.length + 2 := by
    rw [blockEvents_length] at hk
    exact hk
  cases k with
  | zero =>
    have h0 : (blockEvents env hb)[0] = ScanEvent.fetchBlock hb := rfl
    rw [h0] at hget
    exact absurd hget (by simp)
  | succ m =>
    by_cases hmn : m < (env.blockAt hb).transactions.length
    · have hmap : m < ((env.blockAt hb).transactions.map
          (fun tx => ScanEvent.transaction hb tx.id)).length := by
        rw [List.length_map]
        exact hmn
      have hmlen : m < ((env.blockAt hb).transactions.map
          (fun tx => ScanEvent.transaction hb tx.id) ++
          [ScanEvent.saveHeight hb]).length := by
        rw [List.length_append, List.length_map, List.length_singleton]
        omega
      have hsucc : (blockEvents env hb)[m + 1] =
          ((env.blockAt hb).transactions.map (fun tx => ScanEvent.transaction hb tx.id) ++
            [ScanEvent.saveHeight hb])[m] := rfl
      have happ : ((env.blockAt hb).transactions.map
            (fun tx => ScanEvent.transaction hb tx.id) ++
            [ScanEvent.saveHeight hb])[m] =
          ((env.blockAt hb).transactions.map (fun tx => ScanEvent.transaction hb tx.id))[m] :=
        List.getElem_append_left hmap
      rw [hsucc, happ, List.getElem_map] at hget
      exact absurd hget (by simp)
    · omega

theorem flatMap_cons_length (f : Nat → List ScanEvent) (hb : Nat) (rest : List Nat) :
    ((hb :: rest).flatMap f).length = (f hb).length + (rest.flatMap f).length := by
  rw [List.flatMap_cons, List.length_append]

theorem flatMap_cons_getElem_left (f : Nat → List ScanEvent) (hb : Nat) (rest : List Nat)
    (i : Nat) (hin : i < (f hb).length) (hi : i < ((hb :: rest).flatMap f).length) :
    ((hb :: rest).flatMap f).get ⟨i, hi⟩ = (f hb).get ⟨i, hin⟩ := by
  rw [List.get_eq_getElem, List.get_eq_getElem,
    List.getElem_of_eq (List.flatMap_cons hb rest f) hi,
    List.getElem_append_left hin]

theorem flatMap_cons_getElem_right (f : Nat → List ScanEvent) (hb : Nat) (rest : List Nat)
    (i : Nat) (hin : (f hb).length ≤ i) (hi : i < ((hb :: rest).flatMap f).length)
    (hi2 : i - (f hb).length < (rest.flatMap f).length) :
    ((hb :: rest).flatMap f).get ⟨i, hi⟩ =
      (rest.flatMap f).get ⟨i - (f hb).length, hi2⟩ := by
  rw [List.get_eq_getElem, List.get_eq_getElem,
    List.getElem_of_eq (List.flatMap_cons hb rest f) hi,
    List.getElem_append_right hin]

theorem blockOf_flatMap_mem_of_le (f : Nat → List ScanEvent)
    (hf : ∀ hb e, e ∈ f hb → blockOf e = hb)
    (l : List Nat) (k : Nat) (hk : k < (l.flatMap f).length) :
    blockOf ((l.flatMap f).get ⟨k, hk⟩) ∈ l := by
  have hmem : (l.flatMap f).get ⟨k, hk⟩ ∈ l.flatMap f := List.get_mem _ _ _
  obtain ⟨hb, hbl, he⟩ := List.mem_flatMap.mp hmem
  rw [hf hb _ he]
  exact hbl

/-- In a strictly height-sorted concatenation of per-block event lists,
every event of a lower block comes strictly before every event of a
higher block. -/
theorem flatMap_block_mono (f : Nat → List ScanEvent)
    (hf : ∀ hb e, e ∈ f hb → blockOf e = hb) :
    ∀ (l : List Nat), l.Pairwise (· < ·) →
      ∀ (i j : Nat) (hi : i < (l.flatMap f).length) (hj : j < (l.flatMap f).length),
        blockOf ((l.flatMap f).get ⟨i, hi⟩) < blockOf ((l.flatMap f).get ⟨j, hj⟩) →
        i < j
  | [], _, i, j, hi, _, _ => absurd hi (by simp)
  | hb :: rest, hp, i, j, hi, hj, hlt => by
    have hpc := List.pairwise_cons.mp hp
    have hlen := flatMap_cons_length f hb rest
    by_cases hin : i < (f hb).length
    · by_cases hjn : j < (f hb).length
      · rw [flatMap_cons_getElem_left f hb rest i hin hi,
          flatMap_cons_getElem_left f hb rest j hjn hj] at hlt
        rw [hf hb _ (List.get_mem _ _ _), hf hb _ (List.get_mem _ _ _)] at hlt
        exact absurd hlt (Nat.lt_irrefl hb)
      · omega
    · push_neg at hin
      have hi2 : i - (f hb).length < (rest.flatMap f).length := by omega
      rw [flatMap_cons_getElem_right f hb rest i hin hi hi2] at hlt
      have hbi : blockOf ((rest.flatMap f).get ⟨i - (f hb).length, hi2⟩) ∈ rest :=
        blockOf_flatMap_mem_of_le f hf rest _ hi2
      have hbigt : hb < blockOf ((rest.flatMap f).get ⟨i - (f hb).length, hi2⟩) :=
        hpc.1 _ hbi
      by_cases hjn : j < (f hb).length
      · rw [flatMap_cons_getElem_left f hb rest j hjn hj] at hlt
        rw [hf hb _ (List.get_mem _ _ _)] at hlt
        omega
      · push_neg at hjn
        have hj2 : j - (f hb).length < (rest.flatMap f).length := by omega
        rw [flatMap_cons_getElem_right f hb rest j hjn hj hj2] at hlt
        have := flatMap_block_mono f hf rest hpc.2 _ _ hi2 hj2 hlt
        omega

/-- In a strictly height-sorted concatenation of per-block event lists in
which `saveHeight` closes each block's list, every event of block `h`
comes no later than block `h`'s `saveHeight` event. -/
theorem flatMap_save_last (f : Nat → List ScanEvent)
    (hf : ∀ hb e, e ∈ f hb → blockOf e = hb)
    (hsave : ∀ hb (k : Nat) (hk : k < (f hb).length) (hsv : Nat),
      (f hb).get ⟨k, hk⟩ = ScanEvent.saveHeight hsv → k + 1 = (f hb).length) :
    ∀ (l : List Nat), l.Pairwise (· < ·) →
      ∀ (i j : Nat) (hi : i < (l.flatMap f).length) (hj : j < (l.flatMap f).length)
        (h : Nat),
        (l.flatMap f).get ⟨i, hi⟩ = ScanEvent.saveHeight h →
        blockOf ((l.flatMap f).get ⟨j, hj⟩) = h → j ≤ i
  | [], _, i, j, hi, _, _, _, _ => absurd hi (by simp)
  | hb :: rest, hp, i, j, hi, hj, h, hsi, hbj => by
    have hpc := List.pairwise_cons.mp hp
    have hlen := flatMap_cons_length f hb rest
    by_cases hin : i < (f hb).length
    · -- the saveHeight event lies in block hb's own list, at its end
      rw [flatMap_cons_getElem_left f hb rest i hin hi] at hsi
      have hend : i + 1 = (f hb).length := hsave hb i hin h hsi
      have hhb : h = hb := by
        have hof := hf hb _ (List.get_mem (f hb) i hin)
        rw [hsi] at hof
        exact hof
      by_cases hjn : j < (f hb).length
      · omega
      · push_neg at hjn
        have hj2 : j - (f hb).length < (rest.flatMap f).length := by omega
        rw [flatMap_cons_getElem_right f hb rest j hjn hj hj2] at hbj
        have hbjm : blockOf ((rest.flatMap f).get ⟨j - (f hb).length, hj2⟩) ∈ rest :=
          blockOf_flatMap_mem_of_le f hf rest _ hj2
        have : hb < h := hbj ▸ hpc.1 _ hbjm
        omega
    · push_neg at hin
      have hi2 : i - (f hb).length < (rest.flatMap f).length := by omega
      rw [flatMap_cons_getElem_right f hb rest i hin hi hi2] at hsi
      have hbh : h ∈ rest := by
        have hmem := blockOf_flatMap_mem_of_le f hf rest _ hi2
        rw [hsi] at hmem
        exact hmem
      have hhgt : hb < h := hpc.1 _ hbh
      by_cases hjn : j < (f hb).length
      · rw [flatMap_cons_getElem_left f hb rest j hjn hj] at hbj
        rw [hf hb _ (List.get_mem _ _ _)] at hbj
        omega
      · push_neg at hjn
        have hj2 : j - (f hb).length < (rest.flatMap f).length := by omega
        rw [flatMap_cons_getElem_right f hb rest j hjn hj hj2] at hbj
        have := flatMap_save_last f hf hsave rest hpc.2 _ _ hi2 hj2 h hsi hbj
        omega

/-- C3: in one scan pass, events of a lower block come strictly before
events of a higher block (blocks are processed in strictly increasing
height order and block `h1` is fully indexed, its `saveHeight h1`
included, before any event of block `h2 > h1`); `saveHeight h` comes no
earlier than any event of block `h` (the checkpoint is persisted only
after every transaction of the block is indexed, never before); and a
`saveHeight h` event exists for every scanned height. -/
theorem checkNewBlock_block_ordering (env : ChainEnv) (cp : Option Nat) (lastBlock : Nat) :
    (∀ (i j : Nat) (hi : i < (checkNewBlockTrace env cp lastBlock).length)
        (hj : j < (checkNewBlockTrace env cp lastBlock).length),
        blockOf ((checkNewBlockTrace env cp lastBlock).get ⟨i, hi⟩) <
          blockOf ((checkNewBlockTrace env cp lastBlock).get ⟨j, hj⟩) → i < j) ∧
    (∀ (i j : Nat) (hi : i < (checkNewBlockTrace env cp lastBlock).length)
        (hj : j < (checkNewBlockTrace env cp lastBlock).length) (h : Nat),
        (checkNewBlockTrace env cp lastBlock).get ⟨i, hi⟩ = ScanEvent.saveHeight h →
        blockOf ((checkNewBlockTrace env cp lastBlock).get ⟨j, hj⟩) = h → j ≤ i) ∧
    (∀ h, h ∈ heightsToScan env cp lastBlock →
      ScanEvent.saveHeight h ∈ checkNewBlockTrace env cp lastBlock) := by
  have hpair : (heightsToScan env cp lastBlock).Pairwise (· < ·) := by
    unfold heightsToScan
    exact List.pairwise_lt_range' _ _
  refine ⟨?_, ?_, ?_⟩
  · exact fun i j hi hj =>
      flatMap_block_mono (blockEvents env)
        (fun hb e he => blockOf_mem_blockEvents env hb e he)
        (heightsToScan env cp lastBlock) hpair i j hi hj
  · exact fun i j hi hj h hsi hbj =>
      flatMap_save_last (blockEvents env)
        (fun hb e he => blockOf_mem_blockEvents env hb e he)
        (fun hb k hk hsv hget => blockEvents_save_last env hb k hk hsv hget)
        (heightsToScan env cp lastBlock) hpair i j hi hj h hsi hbj
  · intro h hmem
    exact List.mem_flatMap.mpr ⟨h, hmem, by simp [blockEvents]⟩

/-- Witness for C3 on the concrete chain: the pass scanning heights 11
and 12 orders block 11's events before block 12's, keeps `saveHeight 11`
after block 11's fetch, and persists a checkpoint for height 11. -/
theorem checkNewBlock_block_ordering_witness :
    (0 : Nat) < 2 ∧ (0 : Nat) ≤ 1 ∧
    ScanEvent.saveHeight 11 ∈ checkNewBlockTrace cexEnv (some 10) 3 :=
  have h := checkNewBlock_block_ordering cexEnv (some 10) 3
  ⟨h.1 0 2 (by decide) (by decide) (by decide),
   h.2.1 1 0 (by decide) (by decide) 11 (by decide) (by decide),
   h.2.2 11 (by decide)⟩

end Anchor
